import Mathlib

/-!
Verification of the Memory-Fragmentation-Analyzer repository.

The repository's source (`testing.py`) drives vLLM's block allocator and
contains, inline in `simulate_fragmentation_scenario` (lines 216-250), the
fragmentation-analysis pass: sort the free block ids, build maximal runs of
consecutive ids, and report run count, largest run, average run size and the
external-fragmentation ratio.  That loop is embedded below as `buildRuns` /
`analyzeFreeBlocks`.

The allocator itself (`BlockPool`, `FreeKVCacheBlockQueue`,
`BlockHashToBlockMap`) is imported by the script from vLLM and its code is not
part of the repository; it is modelled from the design document (spec), as
marked on each definition.
-/

namespace MemFrag

/-! ## FragmentationAnalyzer: run building (testing.py lines 222-231)

Python source:
```
runs = []
if free_block_ids:
    current_run = [free_block_ids[0]]
    for block_id in free_block_ids[1:]:
        if block_id == current_run[-1] + 1:
            current_run.append(block_id)
        else:
            runs.append(current_run)
            current_run = [block_id]
    runs.append(current_run)
```
-/

/-- The body of the `for block_id in free_block_ids[1:]` loop: `pending` is the
remainder of the iteration, `current_run` and `runs` are the Python locals.
`current_run.getLast?.getD 0` is Python's `current_run[-1]` (the run is never
empty). -/
def buildRunsAux : List Nat → List Nat → List (List Nat) → List (List Nat)
  | [], current_run, runs => runs ++ [current_run]
  | block_id :: rest, current_run, runs =>
    if block_id = current_run.getLast?.getD 0 + 1 then
      buildRunsAux rest (current_run ++ [block_id]) runs
    else
      buildRunsAux rest [block_id] (runs ++ [current_run])

/-- The run-building loop of `simulate_fragmentation_scenario` (lines 222-231):
given the (sorted) free block ids, returns the list of runs; `[]` when the
input is empty (the `if free_block_ids:` guard). -/
def buildRuns : List Nat → List (List Nat)
  | [] => []
  | first :: rest => buildRunsAux rest [first] []

/-- Python's `sorted(...)` applied to the free block ids (line 217). -/
def sortIds (ids : List Nat) : List Nat :=
  ids.insertionSort (· ≤ ·)

/-- Python's `max(len(run) for run in runs)` (line 239), evaluated only when
`runs` is non-empty. -/
def largestRunOf (runs : List (List Nat)) : Nat :=
  (runs.map List.length).foldl max 0

/-- The metrics printed by the fragmentation block of
`simulate_fragmentation_scenario` (lines 233-250). -/
structure FragMetrics where
  num_runs : Nat
  largest_run : Nat
  average_run : ℚ
  total_free : Nat
  external_frag : ℚ
  deriving DecidableEq, Repr

/-- The fragmentation metrics computed by `simulate_fragmentation_scenario`
(lines 216-250) from a list of free block ids: sort the ids, build the runs,
and, when `runs` is non-empty (the `if runs:` guard at line 238), report run
count, largest run, average run size, total free blocks and the external
fragmentation ratio `1 - (largest_run / len(free_block_ids)) if free_block_ids
else 0` (line 249).  When `runs` is empty nothing is reported (`none`). -/
def analyzeFreeBlocks (ids : List Nat) : Option FragMetrics :=
  let free_block_ids := sortIds ids
  let runs := buildRuns free_block_ids
  if runs = [] then none
  else
    some
      { num_runs := runs.length
        largest_run := largestRunOf runs
        average_run := ((runs.map List.length).sum : ℚ) / (runs.length : ℚ)
        total_free := free_block_ids.length
        external_frag :=
          if free_block_ids = [] then 0
          else 1 - (largestRunOf runs : ℚ) / (free_block_ids.length : ℚ) }

/-! ## Declarative maximal-run partition (for the refinement claim C2) -/

/-- Extending a maximal-run partition by one element on the left: the element
joins the first run when it is exactly one below that run's head, and starts a
fresh run otherwise. -/
def glueSpec (a : Nat) : List (List Nat) → List (List Nat)
  | [] => [[a]]
  | r :: rs => if r.headI = a + 1 then (a :: r) :: rs else [a] :: r :: rs

/-- Modelled from the spec: "sort ids; build maximal runs of consecutive
integers".  Declarative right-fold formulation: the maximal-run partition of a
sorted sequence, built by prepending one element at a time. -/
def specRuns : List Nat → List (List Nat)
  | [] => []
  | a :: rest => glueSpec a (specRuns rest)

/-- One step of gluing a finished prefix run onto a maximal-run partition of
the remaining elements: merge when consecutive, otherwise keep separate. -/
def glueRun (cur : List Nat) (chunks : List (List Nat)) : List (List Nat) :=
  match chunks with
  | [] => [cur]
  | r :: rs => if r.headI = cur.getLast?.getD 0 + 1 then (cur ++ r) :: rs else cur :: r :: rs

/-! ## PrefixCacheIndex

The script exercises vLLM's `BlockHashToBlockMap` (`analyze_block_hash_to_block_map`),
whose code is not part of the repository; the index is modelled from the spec
(section 4.3).  A key is a (content hash, cache-group id) pair; both components
are opaque to the core and only compared for equality, so they are modelled as
naturals. -/

/-- A (content hash, cache-group id) key. -/
abbrev CacheKey := Nat × Nat

/-- Association-list lookup used by the modelled index. -/
def pciLookup : List (CacheKey × Nat) → CacheKey → Option Nat
  | [], _ => none
  | (k, b) :: rest, key => if k = key then some b else pciLookup rest key

/-- Modelled from the spec: removal "deletes the mapping only if the stored id
under `key` equals `block_id`; else no-op". -/
def pciRemove : List (CacheKey × Nat) → CacheKey → Nat → List (CacheKey × Nat)
  | [], _, _ => []
  | (k, b) :: rest, key, bid =>
    if k = key ∧ b = bid then rest else (k, b) :: pciRemove rest key bid

/-- Modelled from the spec: `PrefixCacheIndex`, a mapping from (content hash,
group id) keys to block ids (section 4.3).  Keys are kept distinct because
`insert` never adds a key that is already present. -/
structure PrefixCacheIndex where
  entries : List (CacheKey × Nat)
  deriving DecidableEq, Repr

/-- Modelled from the spec: `lookup(key)` "returns one representative id's
block if present". -/
def PrefixCacheIndex.lookup (c : PrefixCacheIndex) (key : CacheKey) : Option Nat :=
  pciLookup c.entries key

/-- Modelled from the spec: `insert(key, block)` "adds `block.id` under `key`
unless an entry for `key` already exists (then no-op)" — first writer wins. -/
def PrefixCacheIndex.insert (c : PrefixCacheIndex) (key : CacheKey) (bid : Nat) :
    PrefixCacheIndex :=
  match c.lookup key with
  | some _ => c
  | none => ⟨(key, bid) :: c.entries⟩

/-- Modelled from the spec: `remove(key, block_id)`. -/
def PrefixCacheIndex.remove (c : PrefixCacheIndex) (key : CacheKey) (bid : Nat) :
    PrefixCacheIndex :=
  ⟨pciRemove c.entries key bid⟩

/-- Modelled from the spec: `size()`, the "count of distinct keys currently
mapped" (keys in `entries` are distinct, so this is the entry count). -/
def PrefixCacheIndex.size (c : PrefixCacheIndex) : Nat :=
  c.entries.length

/-! ## BlockPool

The script imports vLLM's `BlockPool`; its code is not part of the repository
and is modelled from the spec (sections 3 and 4.4).  Blocks are identified by
ids `0..capacity-1`; per-block mutable state (`ref_count`, `content_hash`) is
kept as id-indexed maps, the free queue as the ordered list of free block ids
(head = next to allocate, tail = most recently freed). -/

/-- The error taxonomy of the spec (section 7).  `EmptyQueue` is "always
converted to `InsufficientCapacity` at the BlockPool boundary" and therefore
never surfaces. -/
inductive PoolError where
  | insufficientCapacity
  | doubleFree
  | invariantViolation
  deriving DecidableEq, Repr

/-- Modelled from the spec: the `BlockPool` state — the fixed set of blocks (as
id-indexed `ref_count` and `content_hash` maps), one free queue and one
prefix-cache index (section 3). -/
structure BlockPool where
  capacity : Nat
  refCnt : Nat → Nat
  blockHash : Nat → Option CacheKey
  freeQueue : List Nat
  cache : PrefixCacheIndex

/-- Modelled from the spec: pool construction — "all blocks constructed
unreferenced and free at pool creation" (section 3); the free queue initially
holds every id in construction order.  `hash_block_size` is "opaque to this
core ... not used internally" (section 6) and is therefore not part of the
state. -/
def BlockPool.new (capacity : Nat) : BlockPool where
  capacity := capacity
  refCnt := fun _ => 0
  blockHash := fun _ => none
  freeQueue := List.range capacity
  cache := ⟨[]⟩

/-- Modelled from the spec: `free_count()` "delegates to
`FreeBlockQueue.size()`". -/
def BlockPool.free_count (p : BlockPool) : Nat :=
  p.freeQueue.length

/-- Pops up to `n` blocks from the queue front; returns the popped ids in pop
order, the remaining queue, and whether all `n` pops succeeded (`take_front`
fails with `EmptyQueue` when the queue is exhausted, section 4.2). -/
def takeFrontN : Nat → List Nat → List Nat × List Nat × Bool
  | 0, q => ([], q, true)
  | _ + 1, [] => ([], [], false)
  | n + 1, x :: q =>
    let r := takeFrontN n q
    (x :: r.1, r.2.1, r.2.2)

/-- Modelled from the spec: the per-block effect of a successful allocation —
"if that block carries a `content_hash`, remove it from PrefixCacheIndex (it is
being repurposed, losing its cached identity) and clear its hash; set
`ref_count = 1`" (section 4.4). -/
def evictOne (p : BlockPool) (id : Nat) : BlockPool :=
  let p1 :=
    match p.blockHash id with
    | some key =>
      { p with
        cache := p.cache.remove key id
        blockHash := fun j => if j = id then none else p.blockHash j }
    | none => p
  { p1 with refCnt := fun j => if j = id then 1 else p1.refCnt j }

/-- Applies `evictOne` to each allocated block in pop order. -/
def allocApply (p : BlockPool) : List Nat → BlockPool
  | [] => p
  | id :: ids => allocApply (evictOne p id) ids

/-- Modelled from the spec: `allocate(n)` — "repeat n times — take the head of
FreeBlockQueue ... set ref_count = 1.  Fails with `InsufficientCapacity` if
fewer than n unreferenced blocks exist; on failure, no partial allocation is
retained — any blocks already popped during the failed attempt are returned to
the free queue front in their original relative order before the error is
raised" (section 4.4).  The failure branch rebuilds the queue as
`popped ++ rest` — the popped blocks pushed back at the front in their
original relative order. -/
def BlockPool.allocate (p : BlockPool) (n : Nat) :
    Except PoolError (List Nat) × BlockPool :=
  let r := takeFrontN n p.freeQueue
  if r.2.2 then
    (Except.ok r.1, allocApply { p with freeQueue := r.2.1 } r.1)
  else
    (Except.error PoolError.insufficientCapacity, { p with freeQueue := r.1 ++ r.2.1 })

/-- Modelled from the spec: `retain(block)` "increments `ref_count` by 1 for a
block already held by the caller" (section 4.4); calling it on an unreferenced
or out-of-range block is a caller bookkeeping bug surfaced as
`InvariantViolation` (section 7, defensive detection), with no mutation. -/
def BlockPool.retain (p : BlockPool) (id : Nat) : Except PoolError BlockPool :=
  if id < p.capacity ∧ p.refCnt id ≠ 0 then
    Except.ok { p with refCnt := fun j => if j = id then p.refCnt j + 1 else p.refCnt j }
  else
    Except.error PoolError.invariantViolation

/-- Modelled from the spec: the per-block effect of `release` — "decrement
`ref_count`; when it reaches 0, push to FreeBlockQueue tail. ... Freeing an
already-unreferenced block ... is an invariant violation reported as
`DoubleFreeError`" (section 4.4).  A released block keeps its `content_hash`
and stays indexed.  An out-of-range id is a caller bug surfaced as
`InvariantViolation` (section 6: ids are trusted to be valid). -/
def releaseOne (p : BlockPool) (id : Nat) : Except PoolError BlockPool :=
  if id < p.capacity then
    if p.refCnt id = 0 then Except.error PoolError.doubleFree
    else
      if p.refCnt id - 1 = 0 then
        Except.ok
          { p with
            refCnt := fun j => if j = id then p.refCnt id - 1 else p.refCnt j
            freeQueue := p.freeQueue ++ [id] }
      else
        Except.ok { p with refCnt := fun j => if j = id then p.refCnt id - 1 else p.refCnt j }
  else Except.error PoolError.invariantViolation

/-- Modelled from the spec: `release(blocks)` applied to each block in order;
per the propagation policy, the operation "either fully succeeds or raises the
corresponding error without partial mutation" (section 7) — on error the
caller observes the pre-call state. -/
def BlockPool.release (p : BlockPool) : List Nat → Except PoolError BlockPool
  | [] => Except.ok p
  | id :: ids =>
    match releaseOne p id with
    | Except.ok p1 => p1.release ids
    | Except.error e => Except.error e

/-- Modelled from the spec: `try_cache_lookup(hash, group_id)` — on a hit "the
pool performs both the queue removal and the ref bump atomically as part of a
combined hit-acquisition operation" (section 4.4): a block sitting unreferenced
in the free queue is removed from it and its `ref_count` set to 1; a block that
is already referenced just gets a further reference. -/
def BlockPool.try_cache_lookup (p : BlockPool) (h g : Nat) : Option Nat × BlockPool :=
  match p.cache.lookup (h, g) with
  | none => (none, p)
  | some b =>
    if p.refCnt b = 0 then
      (some b,
        { p with
          freeQueue := p.freeQueue.erase b
          refCnt := fun j => if j = b then 1 else p.refCnt j })
    else
      (some b, { p with refCnt := fun j => if j = b then p.refCnt j + 1 else p.refCnt j })

/-- One scheduler-visible operation on the pool (the operations named by the
spec's quiescent-point invariant). -/
inductive PoolOp where
  | allocate (n : Nat)
  | retain (id : Nat)
  | release (ids : List Nat)
  | try_cache_lookup (h g : Nat)

/-- Runs one operation; a failed operation leaves the pool in its pre-call
state (spec section 7: no partial side effects are observable on failure). -/
def BlockPool.step (p : BlockPool) : PoolOp → BlockPool
  | PoolOp.allocate n => (p.allocate n).2
  | PoolOp.retain id =>
    match p.retain id with
    | Except.ok p1 => p1
    | Except.error _ => p
  | PoolOp.release ids =>
    match p.release ids with
    | Except.ok p1 => p1
    | Except.error _ => p
  | PoolOp.try_cache_lookup h g => (p.try_cache_lookup h g).2

/-- The number of blocks currently referenced (`ref_count > 0`). -/
def BlockPool.numReferenced (p : BlockPool) : Nat :=
  ((Finset.range p.capacity).filter (fun i => 0 < p.refCnt i)).card

/-- The free-queue/ref-count consistency invariant of the spec's data model. -/
structure PoolInv (p : BlockPool) : Prop where
  nodup : p.freeQueue.Nodup
  mem_lt : ∀ i ∈ p.freeQueue, i < p.capacity
  mem_ref : ∀ i ∈ p.freeQueue, p.refCnt i = 0
  ref_mem : ∀ i, i < p.capacity → p.refCnt i = 0 → i ∈ p.freeQueue


/-! ## The fragmentation scenario (testing.py lines 179-250, spec section 8) -/

/-- The scenario pool after request 1 allocates 10 blocks from a fresh pool of
capacity 50 (testing.py line 194; `hash_block_size` is opaque to the core and
not part of the model). -/
def scenarioPool1 : BlockPool := ((BlockPool.new 50).allocate 10).2

/-- The block ids handed to request 2 by its allocation of 15 blocks
(testing.py line 199). -/
def scenarioReq2 : List Nat := ((scenarioPool1.allocate 15).1).toOption.getD []

/-- The scenario pool after request 2 allocates 15 blocks. -/
def scenarioPool2 : BlockPool := (scenarioPool1.allocate 15).2

/-- The scenario pool after request 3 allocates 8 blocks (testing.py line
204). -/
def scenarioPool3 : BlockPool := (scenarioPool2.allocate 8).2

/-- The scenario pool after request 2's 15 blocks are released (testing.py
line 210). -/
def scenarioPool4 : BlockPool :=
  match scenarioPool3.release scenarioReq2 with
  | Except.ok p => p
  | Except.error _ => scenarioPool3

theorem buildRunsAux_eq (pending : List Nat) :
    ∀ (cur : List Nat) (runs : List (List Nat)),
      buildRunsAux pending cur runs = runs ++ glueRun cur (specRuns pending) := by
  induction pending with
  | nil => intro cur runs; simp [buildRunsAux, glueRun, specRuns]
  | cons i rest ih =>
    intro cur runs
    by_cases hi : i = cur.getLast?.getD 0 + 1
    · subst hi
      rw [buildRunsAux, if_pos rfl, ih]
      cases hs : specRuns rest with
      | nil =>
        simp [specRuns, hs, glueSpec, glueRun, List.getLast?_concat]
      | cons r rs =>
        by_cases hr : r.headI = cur.getLast?.getD 0 + 1 + 1
        · simp [specRuns, hs, glueSpec, glueRun, hr, List.getLast?_concat]
        · simp [specRuns, hs, glueSpec, glueRun, hr, List.getLast?_concat]
    · rw [buildRunsAux, if_neg hi, ih]
      cases hs : specRuns rest with
      | nil =>
        simp [specRuns, hs, glueSpec, glueRun, hi]
      | cons r rs =>
        by_cases hr : r.headI = i + 1
        · simp [specRuns, hs, glueSpec, glueRun, hr, hi, List.getLast?_concat]
        · simp [specRuns, hs, glueSpec, glueRun, hr, hi, List.getLast?_concat]

/-- The imperative loop of the source computes exactly the declarative
maximal-run partition. -/
theorem buildRuns_eq_specRuns (l : List Nat) : buildRuns l = specRuns l := by
  cases l with
  | nil => rfl
  | cons a rest =>
    rw [buildRuns, buildRunsAux_eq, List.nil_append]
    cases hs : specRuns rest with
    | nil => simp [specRuns, hs, glueSpec, glueRun]
    | cons r rs =>
      by_cases hr : r.headI = a + 1
      · simp [specRuns, hs, glueSpec, glueRun, hr]
      · simp [specRuns, hs, glueSpec, glueRun, hr]

/-! ### Structural properties of the maximal-run partition -/

theorem specRuns_flatten (l : List Nat) : (specRuns l).flatten = l := by
  induction l with
  | nil => rfl
  | cons a rest ih =>
    rw [specRuns]
    cases hs : specRuns rest with
    | nil =>
      have : rest = [] := by rw [← ih, hs]; rfl
      simp [glueSpec, this]
    | cons r rs =>
      rw [hs] at ih
      by_cases hr : r.headI = a + 1
      · rw [glueSpec, if_pos hr, List.flatten_cons, ← ih]
        simp
      · rw [glueSpec, if_neg hr, List.flatten_cons, ← ih]
        simp

theorem specRuns_ne_nil (l : List Nat) : ∀ r ∈ specRuns l, r ≠ [] := by
  induction l with
  | nil => intro r hr; simp [specRuns] at hr
  | cons a rest ih =>
    intro r hr
    rw [specRuns] at hr
    cases hs : specRuns rest with
    | nil =>
      rw [hs] at hr
      simp [glueSpec] at hr
      simp [hr]
    | cons q qs =>
      rw [hs] at hr
      by_cases hq : q.headI = a + 1
      · rw [glueSpec, if_pos hq] at hr
        rcases List.mem_cons.mp hr with h | h
        · simp [h]
        · exact ih r (hs ▸ List.mem_cons_of_mem q h)
      · rw [glueSpec, if_neg hq] at hr
        rcases List.mem_cons.mp hr with h | h
        · simp [h]
        · exact ih r (hs ▸ h)

theorem specRuns_eq_nil_iff (l : List Nat) : specRuns l = [] ↔ l = [] := by
  cases l with
  | nil => simp [specRuns]
  | cons a rest =>
    rw [specRuns]
    cases specRuns rest with
    | nil => simp [glueSpec]
    | cons r rs =>
      by_cases hr : r.headI = a + 1 <;> simp [glueSpec, hr]

/-- Every run produced by the partition is a run of consecutive integers:
within a run each element is its predecessor plus one. -/
theorem specRuns_consecutive (l : List Nat) :
    ∀ r ∈ specRuns l, r.Chain' (fun a b => b = a + 1) := by
  induction l with
  | nil => intro r hr; simp [specRuns] at hr
  | cons a rest ih =>
    intro r hr
    rw [specRuns] at hr
    cases hs : specRuns rest with
    | nil =>
      rw [hs] at hr
      simp [glueSpec] at hr
      simp [hr]
    | cons q qs =>
      rw [hs] at hr
      by_cases hq : q.headI = a + 1
      · rw [glueSpec, if_pos hq] at hr
        rcases List.mem_cons.mp hr with h | h
        · subst h
          rw [List.chain'_cons']
          refine ⟨?_, ih q (hs ▸ List.mem_cons_self q qs)⟩
          intro b hb
          cases q with
          | nil => simp at hb
          | cons x xs =>
            simp only [List.head?_cons, Option.mem_def, Option.some.injEq] at hb
            subst hb
            simpa [List.headI] using hq
        · exact ih r (hs ▸ List.mem_cons_of_mem q h)
      · rw [glueSpec, if_neg hq] at hr
        rcases List.mem_cons.mp hr with h | h
        · simp [h]
        · exact ih r (hs ▸ h)

/-- The runs are maximal: the head of each later run never extends the run
before it (it is not that run's last element plus one). -/
theorem specRuns_maximal (l : List Nat) :
    (specRuns l).Chain' (fun r s => s.headI ≠ r.getLast?.getD 0 + 1) := by
  induction l with
  | nil => simp [specRuns]
  | cons a rest ih =>
    rw [specRuns]
    cases hs : specRuns rest with
    | nil => simp [glueSpec]
    | cons q qs =>
      rw [hs] at ih
      by_cases hq : q.headI = a + 1
      · rw [glueSpec, if_pos hq]
        have hqne : q ≠ [] := specRuns_ne_nil rest q (hs ▸ List.mem_cons_self q qs)
        cases q with
        | nil => exact absurd rfl hqne
        | cons x xs =>
          rw [List.chain'_cons'] at ih ⊢
          refine ⟨?_, ih.2⟩
          intro s hsmem
          have := ih.1 s hsmem
          simpa using this
      · rw [glueSpec, if_neg hq]
        rw [List.chain'_cons]
        exact ⟨by simpa using hq, ih⟩

theorem buildRuns_eq_nil_iff (l : List Nat) : buildRuns l = [] ↔ l = [] := by
  rw [buildRuns_eq_specRuns]; exact specRuns_eq_nil_iff l

/-! ### The sort (Python `sorted`) -/

theorem sortIds_perm (ids : List Nat) : List.Perm (sortIds ids) ids :=
  List.perm_insertionSort _ ids

theorem sortIds_length (ids : List Nat) : (sortIds ids).length = ids.length :=
  (sortIds_perm ids).length_eq

theorem sortIds_sorted (ids : List Nat) : (sortIds ids).Sorted (· ≤ ·) :=
  List.sorted_insertionSort _ ids

theorem sortIds_eq_nil_iff (ids : List Nat) : sortIds ids = [] ↔ ids = [] := by
  constructor
  · intro h
    have := sortIds_length ids
    rw [h] at this
    exact List.eq_nil_of_length_eq_zero this.symm
  · intro h; subst h; rfl

/-! ### Auxiliary facts about `foldl max` (Python `max(...)`) -/

theorem le_foldl_max (L : List Nat) (a : Nat) : a ≤ L.foldl max a := by
  induction L generalizing a with
  | nil => exact Nat.le_refl a
  | cons y ys ih => exact Nat.le_trans (Nat.le_max_left a y) (ih (max a y))

theorem foldl_max_le_of_mem {L : List Nat} {a x : Nat} (hx : x ∈ L) :
    x ≤ L.foldl max a := by
  induction L generalizing a with
  | nil => simp at hx
  | cons y ys ih =>
    rcases List.mem_cons.mp hx with h | h
    · subst h
      exact Nat.le_trans (Nat.le_max_right a x) (le_foldl_max ys (max a x))
    · exact ih h

theorem foldl_max_eq_or_mem (L : List Nat) (a : Nat) :
    L.foldl max a = a ∨ L.foldl max a ∈ L := by
  induction L generalizing a with
  | nil => exact Or.inl rfl
  | cons y ys ih =>
    rcases ih (max a y) with h | h
    · rcases Nat.le_total a y with hay | hya
      · right
        rw [List.foldl_cons, h, Nat.max_eq_right hay]
        exact List.mem_cons_self y ys
      · left
        rw [List.foldl_cons, h, Nat.max_eq_left hya]
    · right
      exact List.mem_cons_of_mem y h

/-! ### Unfolding the analyzer on a successful report -/

theorem analyzeFreeBlocks_some {ids : List Nat} {m : FragMetrics}
    (h : analyzeFreeBlocks ids = some m) :
    sortIds ids ≠ [] ∧
    buildRuns (sortIds ids) ≠ [] ∧
    m.num_runs = (buildRuns (sortIds ids)).length ∧
    m.largest_run = largestRunOf (buildRuns (sortIds ids)) ∧
    m.average_run =
      (((buildRuns (sortIds ids)).map List.length).sum : ℚ) / (m.num_runs : ℚ) ∧
    m.total_free = (sortIds ids).length ∧
    m.external_frag = 1 - (m.largest_run : ℚ) / (m.total_free : ℚ) := by
  by_cases hr : buildRuns (sortIds ids) = []
  · rw [analyzeFreeBlocks.eq_def] at h
    simp only [hr, if_pos rfl] at h
    cases h
  · have hids : sortIds ids ≠ [] := by
      intro hnil
      exact hr (by rw [hnil]; rfl)
    rw [analyzeFreeBlocks.eq_def] at h
    simp only [if_neg hr, if_neg hids, Option.some.injEq] at h
    subst h
    refine ⟨hids, hr, rfl, rfl, rfl, rfl, rfl⟩

/-! ## The pool bookkeeping invariant (spec section 3)

"A block with `ref_count > 0` is never present in FreeBlockQueue.  A block with
`ref_count == 0` is present in FreeBlockQueue exactly once." -/

theorem poolInv_new (C : Nat) : PoolInv (BlockPool.new C) where
  nodup := List.nodup_range C
  mem_lt := fun _ hi => List.mem_range.mp hi
  mem_ref := fun _ _ => rfl
  ref_mem := fun _ hi _ => List.mem_range.mpr hi

theorem takeFrontN_append : ∀ (n : Nat) (q : List Nat),
    (takeFrontN n q).1 ++ (takeFrontN n q).2.1 = q := by
  intro n
  induction n with
  | zero => intro q; rfl
  | succ n ih =>
    intro q
    cases q with
    | nil => rfl
    | cons x q =>
      rw [takeFrontN]
      simpa using ih q

theorem takeFrontN_of_lt : ∀ (n : Nat) (q : List Nat), q.length < n →
    takeFrontN n q = (q, [], false) := by
  intro n
  induction n with
  | zero => intro q h; cases h
  | succ n ih =>
    intro q h
    cases q with
    | nil => rfl
    | cons x q =>
      rw [takeFrontN, ih q (Nat.lt_of_succ_lt_succ h)]

theorem evictOne_capacity (p : BlockPool) (id : Nat) :
    (evictOne p id).capacity = p.capacity := by
  simp only [evictOne]
  cases p.blockHash id <;> rfl

theorem evictOne_freeQueue (p : BlockPool) (id : Nat) :
    (evictOne p id).freeQueue = p.freeQueue := by
  simp only [evictOne]
  cases p.blockHash id <;> rfl

theorem evictOne_refCnt (p : BlockPool) (id j : Nat) :
    (evictOne p id).refCnt j = if j = id then 1 else p.refCnt j := by
  simp only [evictOne]
  cases p.blockHash id <;> rfl

theorem allocApply_spec (ids : List Nat) : ∀ (p : BlockPool),
    (allocApply p ids).capacity = p.capacity ∧
    (allocApply p ids).freeQueue = p.freeQueue ∧
    ∀ j, (allocApply p ids).refCnt j = if j ∈ ids then 1 else p.refCnt j := by
  induction ids with
  | nil =>
    intro p
    exact ⟨rfl, rfl, fun j => by simp [allocApply]⟩
  | cons id ids ih =>
    intro p
    obtain ⟨hc, hq, hr⟩ := ih (evictOne p id)
    refine ⟨?_, ?_, ?_⟩
    · rw [allocApply, hc, evictOne_capacity]
    · rw [allocApply, hq, evictOne_freeQueue]
    · intro j
      rw [allocApply, hr j, evictOne_refCnt]
      by_cases h1 : j ∈ ids <;> by_cases h2 : j = id <;> simp [h1, h2]

theorem allocate_eq_of_ok {p : BlockPool} {n : Nat}
    (hok : (takeFrontN n p.freeQueue).2.2 = true) :
    p.allocate n = (Except.ok (takeFrontN n p.freeQueue).1,
      allocApply ({ p with freeQueue := (takeFrontN n p.freeQueue).2.1 } : BlockPool)
        (takeFrontN n p.freeQueue).1) := by
  simp only [BlockPool.allocate]
  rw [if_pos hok]

theorem allocate_eq_of_fail {p : BlockPool} {n : Nat}
    (hok : ¬ (takeFrontN n p.freeQueue).2.2 = true) :
    p.allocate n = (Except.error PoolError.insufficientCapacity, p) := by
  simp only [BlockPool.allocate]
  rw [if_neg hok]
  have hsplit := takeFrontN_append n p.freeQueue
  rw [hsplit]

theorem allocate_inv {p : BlockPool} {n : Nat} (h : PoolInv p) :
    PoolInv (p.allocate n).2 := by
  by_cases hok : (takeFrontN n p.freeQueue).2.2 = true
  · rw [allocate_eq_of_ok hok]
    have hsplit := takeFrontN_append n p.freeQueue
    set popped := (takeFrontN n p.freeQueue).1 with hp
    set rest := (takeFrontN n p.freeQueue).2.1 with hrst
    obtain ⟨hc, hq, hr⟩ :=
      allocApply_spec popped ({ p with freeQueue := rest } : BlockPool)
    have hnodup : (popped ++ rest).Nodup := by rw [hsplit]; exact h.nodup
    have hdisj := (List.nodup_append.mp hnodup).2.2
    refine ⟨?_, ?_, ?_, ?_⟩
    · rw [hq]
      exact (List.nodup_append.mp hnodup).2.1
    · intro i hi
      rw [hq] at hi
      rw [hc]
      exact h.mem_lt i (hsplit ▸ List.mem_append_right popped hi)
    · intro i hi
      rw [hq] at hi
      rw [hr i]
      have hnp : i ∉ popped := fun hmem => hdisj hmem hi
      rw [if_neg hnp]
      exact h.mem_ref i (hsplit ▸ List.mem_append_right popped hi)
    · intro i hilt hi0
      rw [hc] at hilt
      rw [hr i] at hi0
      rw [hq]
      by_cases hmem : i ∈ popped
      · rw [if_pos hmem] at hi0; cases hi0
      · rw [if_neg hmem] at hi0
        have := h.ref_mem i hilt hi0
        rw [← hsplit] at this
        rcases List.mem_append.mp this with hl | hrr
        · exact absurd hl hmem
        · exact hrr
  · rw [allocate_eq_of_fail hok]
    exact h

theorem allocate_capacity (p : BlockPool) (n : Nat) :
    (p.allocate n).2.capacity = p.capacity := by
  by_cases hok : (takeFrontN n p.freeQueue).2.2 = true
  · rw [allocate_eq_of_ok hok]
    exact (allocApply_spec _ _).1
  · rw [allocate_eq_of_fail hok]

theorem retain_ok {p p1 : BlockPool} {id : Nat} (he : p.retain id = Except.ok p1) :
    p1.capacity = p.capacity ∧ p1.freeQueue = p.freeQueue ∧
    p.refCnt id ≠ 0 ∧
    ∀ j, p1.refCnt j = if j = id then p.refCnt j + 1 else p.refCnt j := by
  rw [BlockPool.retain] at he
  split_ifs at he with hcond
  · cases he
    exact ⟨rfl, rfl, hcond.2, fun j => rfl⟩

theorem retain_inv {p p1 : BlockPool} {id : Nat} (h : PoolInv p)
    (he : p.retain id = Except.ok p1) : PoolInv p1 := by
  obtain ⟨hc, hq, hne, hr⟩ := retain_ok he
  refine ⟨hq ▸ h.nodup, ?_, ?_, ?_⟩
  · intro i hi
    rw [hq] at hi; rw [hc]
    exact h.mem_lt i hi
  · intro i hi
    rw [hq] at hi
    rw [hr i]
    have hi0 := h.mem_ref i hi
    have hni : i ≠ id := fun hii => hne (hii ▸ hi0)
    rw [if_neg hni]
    exact hi0
  · intro i hilt hi0
    rw [hc] at hilt
    rw [hr i] at hi0
    rw [hq]
    by_cases hii : i = id
    · rw [if_pos hii] at hi0; cases hi0
    · rw [if_neg hii] at hi0
      exact h.ref_mem i hilt hi0

theorem releaseOne_ok {p p1 : BlockPool} {id : Nat}
    (he : releaseOne p id = Except.ok p1) :
    p1.capacity = p.capacity ∧ id < p.capacity ∧ p.refCnt id ≠ 0 ∧
    (∀ j, p1.refCnt j = if j = id then p.refCnt id - 1 else p.refCnt j) ∧
    ((p.refCnt id - 1 = 0 ∧ p1.freeQueue = p.freeQueue ++ [id]) ∨
      (p.refCnt id - 1 ≠ 0 ∧ p1.freeQueue = p.freeQueue)) := by
  rw [releaseOne] at he
  split_ifs at he with hlt h0 hr0
  · cases he
    exact ⟨rfl, hlt, h0, fun j => rfl, Or.inl ⟨hr0, rfl⟩⟩
  · cases he
    exact ⟨rfl, hlt, h0, fun j => rfl, Or.inr ⟨hr0, rfl⟩⟩

theorem releaseOne_inv {p p1 : BlockPool} {id : Nat} (h : PoolInv p)
    (he : releaseOne p id = Except.ok p1) : PoolInv p1 := by
  obtain ⟨hc, hlt, hne, hr, hcase⟩ := releaseOne_ok he
  have hnotmem : id ∉ p.freeQueue := fun hmem => hne (h.mem_ref id hmem)
  rcases hcase with ⟨hr0, hq⟩ | ⟨hr0, hq⟩
  · refine ⟨?_, ?_, ?_, ?_⟩
    · rw [hq]
      exact List.Nodup.append h.nodup (List.nodup_singleton id)
        (fun a ha hb => hnotmem ((List.mem_singleton.mp hb) ▸ ha))
    · intro i hi
      rw [hq] at hi; rw [hc]
      rcases List.mem_append.mp hi with hl | hrr
      · exact h.mem_lt i hl
      · rw [List.mem_singleton.mp hrr]; exact hlt
    · intro i hi
      rw [hq] at hi
      rw [hr i]
      rcases List.mem_append.mp hi with hl | hrr
      · have : i ≠ id := fun hii => hnotmem (hii ▸ hl)
        rw [if_neg this]
        exact h.mem_ref i hl
      · rw [List.mem_singleton.mp hrr, if_pos rfl]
        exact hr0
    · intro i hilt hi0
      rw [hc] at hilt
      rw [hr i] at hi0
      rw [hq]
      by_cases hii : i = id
      · exact List.mem_append_right _ (by rw [hii]; exact List.mem_singleton_self id)
      · rw [if_neg hii] at hi0
        exact List.mem_append_left _ (h.ref_mem i hilt hi0)
  · refine ⟨hq ▸ h.nodup, ?_, ?_, ?_⟩
    · intro i hi
      rw [hq] at hi; rw [hc]
      exact h.mem_lt i hi
    · intro i hi
      rw [hq] at hi
      rw [hr i]
      have : i ≠ id := fun hii => hnotmem (hii ▸ hi)
      rw [if_neg this]
      exact h.mem_ref i hi
    · intro i hilt hi0
      rw [hc] at hilt
      rw [hr i] at hi0
      rw [hq]
      by_cases hii : i = id
      · rw [if_pos hii] at hi0; exact absurd hi0 hr0
      · rw [if_neg hii] at hi0
        exact h.ref_mem i hilt hi0

theorem release_inv : ∀ (ids : List Nat) {p p1 : BlockPool}, PoolInv p →
    p.release ids = Except.ok p1 → PoolInv p1 := by
  intro ids
  induction ids with
  | nil =>
    intro p p1 h he
    rw [BlockPool.release] at he
    cases he
    exact h
  | cons id ids ih =>
    intro p p1 h he
    rw [BlockPool.release] at he
    cases hro : releaseOne p id with
    | ok pm =>
      rw [hro] at he
      exact ih (releaseOne_inv h hro) he
    | error e =>
      rw [hro] at he
      cases he

theorem releaseOne_capacity {p p1 : BlockPool} {id : Nat}
    (he : releaseOne p id = Except.ok p1) : p1.capacity = p.capacity :=
  (releaseOne_ok he).1

theorem release_capacity : ∀ (ids : List Nat) {p p1 : BlockPool},
    p.release ids = Except.ok p1 → p1.capacity = p.capacity := by
  intro ids
  induction ids with
  | nil =>
    intro p p1 he
    rw [BlockPool.release] at he
    cases he
    rfl
  | cons id ids ih =>
    intro p p1 he
    rw [BlockPool.release] at he
    cases hro : releaseOne p id with
    | ok pm =>
      rw [hro] at he
      rw [ih he, releaseOne_capacity hro]
    | error e =>
      rw [hro] at he
      cases he

theorem tcl_eq_none {p : BlockPool} {hsh g : Nat}
    (hl : p.cache.lookup (hsh, g) = none) :
    p.try_cache_lookup hsh g = (none, p) := by
  simp only [BlockPool.try_cache_lookup]
  rw [hl]

theorem tcl_eq_free {p : BlockPool} {hsh g b : Nat}
    (hl : p.cache.lookup (hsh, g) = some b) (hb : p.refCnt b = 0) :
    p.try_cache_lookup hsh g = (some b,
      { p with
        freeQueue := p.freeQueue.erase b
        refCnt := fun j => if j = b then 1 else p.refCnt j }) := by
  simp only [BlockPool.try_cache_lookup]
  rw [hl]
  dsimp only
  rw [if_pos hb]

theorem tcl_eq_ref {p : BlockPool} {hsh g b : Nat}
    (hl : p.cache.lookup (hsh, g) = some b) (hb : ¬ p.refCnt b = 0) :
    p.try_cache_lookup hsh g = (some b,
      { p with refCnt := fun j => if j = b then p.refCnt j + 1 else p.refCnt j }) := by
  simp only [BlockPool.try_cache_lookup]
  rw [hl]
  dsimp only
  rw [if_neg hb]

theorem try_cache_lookup_inv {p : BlockPool} {hsh g : Nat} (h : PoolInv p) :
    PoolInv (p.try_cache_lookup hsh g).2 := by
  cases hlook : p.cache.lookup (hsh, g) with
  | none =>
    rw [tcl_eq_none hlook]
    exact h
  | some b =>
    by_cases hb : p.refCnt b = 0
    · rw [tcl_eq_free hlook hb]
      refine ⟨h.nodup.erase b, ?_, ?_, ?_⟩
      · intro i hi
        exact h.mem_lt i (List.mem_of_mem_erase hi)
      · intro i hi
        obtain ⟨hib, hiq⟩ := (List.Nodup.mem_erase_iff h.nodup).mp hi
        simp only [if_neg hib]
        exact h.mem_ref i hiq
      · intro i hilt hi0
        simp only at hi0
        by_cases hib : i = b
        · rw [if_pos hib] at hi0; cases hi0
        · rw [if_neg hib] at hi0
          exact (List.Nodup.mem_erase_iff h.nodup).mpr ⟨hib, h.ref_mem i hilt hi0⟩
    · rw [tcl_eq_ref hlook hb]
      refine ⟨h.nodup, h.mem_lt, ?_, ?_⟩
      · intro i hi
        have hi0 := h.mem_ref i hi
        have hib : i ≠ b := fun hii => hb (hii ▸ hi0)
        simp only [if_neg hib]
        exact hi0
      · intro i hilt hi0
        simp only at hi0
        by_cases hib : i = b
        · rw [if_pos hib] at hi0
          exact absurd hi0 (by omega)
        · rw [if_neg hib] at hi0
          exact h.ref_mem i hilt hi0

theorem try_cache_lookup_capacity (p : BlockPool) (hsh g : Nat) :
    (p.try_cache_lookup hsh g).2.capacity = p.capacity := by
  cases hlook : p.cache.lookup (hsh, g) with
  | none => rw [tcl_eq_none hlook]
  | some b =>
    by_cases hb : p.refCnt b = 0
    · rw [tcl_eq_free hlook hb]
    · rw [tcl_eq_ref hlook hb]

theorem step_inv {p : BlockPool} (h : PoolInv p) (op : PoolOp) :
    PoolInv (p.step op) := by
  cases op with
  | allocate n => exact allocate_inv h
  | retain id =>
    rw [BlockPool.step]
    cases hre : p.retain id with
    | ok p1 => exact retain_inv h hre
    | error e => exact h
  | release ids =>
    rw [BlockPool.step]
    cases hre : p.release ids with
    | ok p1 => exact release_inv ids h hre
    | error e => exact h
  | try_cache_lookup hsh g => exact try_cache_lookup_inv h

theorem step_capacity (p : BlockPool) (op : PoolOp) :
    (p.step op).capacity = p.capacity := by
  cases op with
  | allocate n => exact allocate_capacity p n
  | retain id =>
    rw [BlockPool.step]
    cases hre : p.retain id with
    | ok p1 => exact (retain_ok hre).1
    | error e => rfl
  | release ids =>
    rw [BlockPool.step]
    cases hre : p.release ids with
    | ok p1 => exact release_capacity ids hre
    | error e => rfl
  | try_cache_lookup hsh g => exact try_cache_lookup_capacity p hsh g

/-- Under the bookkeeping invariant, the free count and referenced count
exactly tile the capacity. -/
theorem free_count_add_numReferenced {p : BlockPool} (h : PoolInv p) :
    p.free_count + p.numReferenced = p.capacity := by
  have hset : p.freeQueue.toFinset =
      (Finset.range p.capacity).filter (fun i => p.refCnt i = 0) := by
    ext i
    simp only [List.mem_toFinset, Finset.mem_filter, Finset.mem_range]
    constructor
    · intro hi
      exact ⟨h.mem_lt i hi, h.mem_ref i hi⟩
    · intro ⟨hilt, hi0⟩
      exact h.ref_mem i hilt hi0
  have hfree : p.free_count =
      ((Finset.range p.capacity).filter (fun i => p.refCnt i = 0)).card := by
    rw [← hset, List.toFinset_card_of_nodup h.nodup]
    rfl
  have hneg : (Finset.range p.capacity).filter (fun i => ¬ p.refCnt i = 0) =
      (Finset.range p.capacity).filter (fun i => 0 < p.refCnt i) := by
    apply Finset.filter_congr
    intro i _
    simp [Nat.pos_iff_ne_zero]
  rw [hfree, BlockPool.numReferenced, ← hneg,
    Finset.filter_card_add_filter_neg_card_eq_card, Finset.card_range]

theorem foldl_step_inv (ops : List PoolOp) : ∀ {p : BlockPool}, PoolInv p →
    PoolInv (ops.foldl BlockPool.step p) := by
  induction ops with
  | nil => intro p h; exact h
  | cons op ops ih =>
    intro p h
    exact ih (step_inv h op)

theorem foldl_step_capacity (ops : List PoolOp) : ∀ (p : BlockPool),
    (ops.foldl BlockPool.step p).capacity = p.capacity := by
  induction ops with
  | nil => intro p; rfl
  | cons op ops ih =>
    intro p
    rw [List.foldl_cons, ih, step_capacity]

/-! ## Further analyzer helpers -/

theorem analyzeFreeBlocks_ne_none {ids : List Nat} (hne : ids ≠ []) :
    analyzeFreeBlocks ids ≠ none := by
  have h1 : sortIds ids ≠ [] := fun h => hne ((sortIds_eq_nil_iff ids).mp h)
  have h2 : buildRuns (sortIds ids) ≠ [] :=
    fun hh => h1 ((buildRuns_eq_nil_iff _).mp hh)
  simp only [analyzeFreeBlocks, if_neg h2]
  exact Option.some_ne_none _

/-! ## The claims -/

set_option maxRecDepth 10000 in
/-- C1 (counterexample): in the capacity-50 scenario the free-block-id set
after releasing request 2 is NOT `{10..24} ∪ {41..49}` as claimed — request 3
received ids 25-32, so the actual sorted free set is `{10..24} ∪ {33..49}`,
whose largest run is 17, not 15; the claimed set has only 24 elements while
`free_count()` is 32. -/
theorem c1_scenario_counterexample :
    sortIds scenarioPool4.freeQueue ≠ List.range' 10 15 ++ List.range' 41 9 ∧
    scenarioPool4.free_count = 32 ∧
    (List.range' 10 15 ++ List.range' 41 9).length = 24 ∧
    largestRunOf (buildRuns (sortIds scenarioPool4.freeQueue)) = 17 := by
  decide

set_option maxRecDepth 10000 in
/-- C1 (amended): starting from a fresh pool of capacity 50, allocating 10,
15 and 8 blocks leaves `free_count() = 17`; releasing request 2's 15 blocks
(ids 10-24) leaves `free_count() = 32` and free-block-id set
`{10..24} ∪ {33..49}`, on which the analyzer reports 2 runs, largest run 17,
average run size 16.0 and external fragmentation ratio `1 - 17/32 = 15/32`. -/
theorem c1_scenario_amended :
    scenarioPool3.free_count = 17 ∧
    scenarioPool4.free_count = 32 ∧
    scenarioReq2 = List.range' 10 15 ∧
    sortIds scenarioPool4.freeQueue = List.range' 10 15 ++ List.range' 33 17 ∧
    analyzeFreeBlocks scenarioPool4.freeQueue =
      some { num_runs := 2, largest_run := 17, average_run := 16,
             total_free := 32, external_frag := 15/32 } := by
  refine ⟨by decide, by decide, by decide, by decide, ?_⟩
  have hq : sortIds scenarioPool4.freeQueue =
      List.range' 10 15 ++ List.range' 33 17 := by decide
  have hruns : buildRuns (List.range' 10 15 ++ List.range' 33 17) =
      [List.range' 10 15, List.range' 33 17] := by decide
  have h1 : largestRunOf [List.range' 10 15, List.range' 33 17] = 17 := by decide
  have h2 : (List.range' 10 15 ++ List.range' 33 17).length = 32 := by decide
  have h3 : (List.map List.length [List.range' 10 15, List.range' 33 17]).sum = 32 := by
    decide
  simp [analyzeFreeBlocks, hq, hruns, h1, h2, h3]
  norm_num

/-- C2: for every list of free block ids, the analyzer's run-building loop on
the sorted ids computes exactly the declarative maximal-run partition
(`specRuns`), and on any reported metrics the run count equals the number of
maximal runs and the largest-run size is the maximum of the run lengths. -/
theorem c2_maximal_run_refinement (ids : List Nat) :
    buildRuns (sortIds ids) = specRuns (sortIds ids) ∧
    ∀ m : FragMetrics, analyzeFreeBlocks ids = some m →
      m.num_runs = (specRuns (sortIds ids)).length ∧
      (∀ r ∈ specRuns (sortIds ids), r.length ≤ m.largest_run) ∧
      (∃ r ∈ specRuns (sortIds ids), r.length = m.largest_run) := by
  refine ⟨buildRuns_eq_specRuns _, ?_⟩
  intro m h
  obtain ⟨hids, hrne, hnum, hlar, havg, htot, hfrag⟩ := analyzeFreeBlocks_some h
  rw [buildRuns_eq_specRuns] at hnum hlar hrne
  refine ⟨hnum, ?_, ?_⟩
  · intro r hr
    rw [hlar, largestRunOf]
    exact foldl_max_le_of_mem (List.mem_map_of_mem List.length hr)
  · rcases foldl_max_eq_or_mem ((specRuns (sortIds ids)).map List.length) 0 with h0 | hmem
    · exfalso
      cases hcons : specRuns (sortIds ids) with
      | nil => exact hrne hcons
      | cons r0 rs =>
        have hmem0 : r0.length ∈ (specRuns (sortIds ids)).map List.length := by
          rw [hcons]
          exact List.mem_cons_self _ _
        have hle := foldl_max_le_of_mem (a := 0) hmem0
        rw [h0] at hle
        have hr0 := specRuns_ne_nil (sortIds ids) r0 (hcons ▸ List.mem_cons_self r0 rs)
        exact hr0 (List.eq_nil_of_length_eq_zero (Nat.le_zero.mp hle))
    · obtain ⟨r, hrmem, hrlen⟩ := List.mem_map.mp hmem
      exact ⟨r, hrmem, by rw [hlar, largestRunOf, hrlen]⟩

/-- C2 witness: the refinement evaluated on the concrete input `[3, 5, 4, 9]`
(sorted `[3, 4, 5, 9]`, runs `[[3,4,5],[9]]`). -/
theorem c2_maximal_run_refinement_witness :
    analyzeFreeBlocks [3, 5, 4, 9] =
      some { num_runs := 2, largest_run := 3, average_run := 2, total_free := 4,
             external_frag := 1/4 } ∧
    ({ num_runs := 2, largest_run := 3, average_run := 2, total_free := 4,
       external_frag := 1/4 } : FragMetrics).num_runs =
      (specRuns (sortIds [3, 5, 4, 9])).length := by
  have hsome : analyzeFreeBlocks [3, 5, 4, 9] =
      some { num_runs := 2, largest_run := 3, average_run := 2, total_free := 4,
             external_frag := 1/4 } := by
    have hq : sortIds [3, 5, 4, 9] = [3, 4, 5, 9] := by decide
    have hruns : buildRuns [3, 4, 5, 9] = [[3, 4, 5], [9]] := by decide
    simp [analyzeFreeBlocks, hq, hruns, largestRunOf]
    norm_num
  exact ⟨hsome, ((c2_maximal_run_refinement [3, 5, 4, 9]).2 _ hsome).1⟩

/-- C3 (counterexample): on an empty list of free block ids the analyzer
reports nothing at all (the `if runs:` guard skips the metrics block), rather
than reporting an external-fragmentation ratio of 0. -/
theorem c3_no_report_on_empty : analyzeFreeBlocks [] = none := rfl

/-- C3 (amended): whenever the analyzer reports metrics (equivalently, the
free-block list is non-empty), the external-fragmentation ratio equals
`1 - largest_run / total_free`, and it is 0 when all free blocks form one
contiguous run; when there are no free blocks, no ratio is reported at all
(see the counterexample). -/
theorem c3_external_frag_amended (ids : List Nat) (m : FragMetrics)
    (h : analyzeFreeBlocks ids = some m) :
    m.external_frag = 1 - (m.largest_run : ℚ) / (m.total_free : ℚ) ∧
    (m.num_runs = 1 → m.external_frag = 0) := by
  obtain ⟨hids, hrne, hnum, hlar, havg, htot, hfrag⟩ := analyzeFreeBlocks_some h
  refine ⟨hfrag, ?_⟩
  intro h1
  rw [hnum] at h1
  obtain ⟨r, hr⟩ := List.length_eq_one.mp h1
  have hflat : (buildRuns (sortIds ids)).flatten = sortIds ids := by
    rw [buildRuns_eq_specRuns]
    exact specRuns_flatten _
  have hsr : sortIds ids = r := by
    rw [← hflat, hr]
    simp
  have hlr : m.largest_run = r.length := by
    rw [hlar, hr, largestRunOf]
    simp [Nat.zero_max]
  have htr : m.total_free = r.length := by rw [htot, hsr]
  have hrlen : (r.length : ℚ) ≠ 0 := by
    have : r.length ≠ 0 := by
      intro h0
      exact hids (hsr ▸ List.eq_nil_of_length_eq_zero h0)
    exact_mod_cast this
  rw [hfrag, hlr, htr, div_self hrlen]
  norm_num

/-- C3 witness: the amended statement evaluated on the single-run input
`[5, 6, 7]`. -/
theorem c3_external_frag_amended_witness :
    analyzeFreeBlocks [5, 6, 7] =
      some { num_runs := 1, largest_run := 3, average_run := 3, total_free := 3,
             external_frag := 0 } ∧
    (({ num_runs := 1, largest_run := 3, average_run := 3, total_free := 3,
        external_frag := 0 } : FragMetrics).external_frag =
      1 - ((3 : Nat) : ℚ) / ((3 : Nat) : ℚ) ∧
      (({ num_runs := 1, largest_run := 3, average_run := 3, total_free := 3,
          external_frag := 0 } : FragMetrics).num_runs = 1 →
        ({ num_runs := 1, largest_run := 3, average_run := 3, total_free := 3,
           external_frag := 0 } : FragMetrics).external_frag = 0)) := by
  have hsome : analyzeFreeBlocks [5, 6, 7] =
      some { num_runs := 1, largest_run := 3, average_run := 3, total_free := 3,
             external_frag := 0 } := by
    have hq : sortIds [5, 6, 7] = [5, 6, 7] := by decide
    have hruns : buildRuns [5, 6, 7] = [[5, 6, 7]] := by decide
    simp [analyzeFreeBlocks, hq, hruns, largestRunOf]
  exact ⟨hsome, c3_external_frag_amended [5, 6, 7] _ hsome⟩

/-- C4: for every pool capacity and every sequence of allocate, retain,
release and try_cache_lookup operations, at every quiescent point
`free_count()` plus the number of blocks with `ref_count > 0` equals the
capacity. -/
theorem c4_free_plus_referenced_eq_capacity (C : Nat) (ops : List PoolOp) :
    (ops.foldl BlockPool.step (BlockPool.new C)).free_count +
      (ops.foldl BlockPool.step (BlockPool.new C)).numReferenced = C := by
  have hinv := foldl_step_inv ops (poolInv_new C)
  have hcap := foldl_step_capacity ops (BlockPool.new C)
  rw [free_count_add_numReferenced hinv, hcap]
  rfl

/-- C5: for every pool state and every `n` greater than `free_count()`,
`allocate(n)` raises `InsufficientCapacity` and the resulting pool state is
exactly the pre-call state — the blocks popped during the failed attempt are
back at the free-queue front in their original relative order. -/
theorem c5_allocate_insufficient_no_op (p : BlockPool) (n : Nat)
    (h : p.free_count < n) :
    p.allocate n = (Except.error PoolError.insufficientCapacity, p) := by
  have hq : p.freeQueue.length < n := h
  have htf := takeFrontN_of_lt n p.freeQueue hq
  apply allocate_eq_of_fail
  rw [htf]
  simp

/-- C5 witness: allocating 5 blocks from a fresh pool of capacity 2 fails with
`InsufficientCapacity` and returns the unchanged pool. -/
theorem c5_allocate_insufficient_no_op_witness :
    (BlockPool.new 2).free_count < 5 ∧
    (BlockPool.new 2).allocate 5 =
      (Except.error PoolError.insufficientCapacity, BlockPool.new 2) :=
  ⟨by decide, c5_allocate_insufficient_no_op (BlockPool.new 2) 5 (by decide)⟩

/-- C6: inserting a block under a fresh (hash, group) key and then inserting a
different block id under the same key leaves the index size unchanged by the
second insert and `lookup` still returns the first-inserted id. -/
theorem c6_first_writer_wins (c : PrefixCacheIndex) (key : CacheKey)
    (b1 b2 : Nat) (hnew : c.lookup key = none) (hne : b1 ≠ b2) :
    ((c.insert key b1).insert key b2).size = (c.insert key b1).size ∧
    ((c.insert key b1).insert key b2).lookup key = some b1 := by
  have h1 : c.insert key b1 = ⟨(key, b1) :: c.entries⟩ := by
    simp only [PrefixCacheIndex.insert, hnew]
  have h2 : (⟨(key, b1) :: c.entries⟩ : PrefixCacheIndex).lookup key = some b1 := by
    simp [PrefixCacheIndex.lookup, pciLookup]
  have h3 : (⟨(key, b1) :: c.entries⟩ : PrefixCacheIndex).insert key b2 =
      ⟨(key, b1) :: c.entries⟩ := by
    simp only [PrefixCacheIndex.insert, h2]
  rw [h1, h3]
  exact ⟨rfl, h2⟩

/-- C6 witness: the first-writer-wins law on the empty index with key (7, 0)
and block ids 1 and 2. -/
theorem c6_first_writer_wins_witness :
    (⟨[]⟩ : PrefixCacheIndex).lookup (7, 0) = none ∧ (1 : Nat) ≠ 2 ∧
    (((⟨[]⟩ : PrefixCacheIndex).insert (7, 0) 1).insert (7, 0) 2).size =
      ((⟨[]⟩ : PrefixCacheIndex).insert (7, 0) 1).size ∧
    (((⟨[]⟩ : PrefixCacheIndex).insert (7, 0) 1).insert (7, 0) 2).lookup (7, 0) =
      some 1 := by
  refine ⟨by decide, by decide, ?_, ?_⟩
  · exact (c6_first_writer_wins ⟨[]⟩ (7, 0) 1 2 (by decide) (by decide)).1
  · exact (c6_first_writer_wins ⟨[]⟩ (7, 0) 1 2 (by decide) (by decide)).2

/-- C7: releasing a block whose `ref_count` is 1 succeeds and leaves its
`ref_count` at 0; releasing it again immediately raises `DoubleFreeError` on
that second call — the error is the operation result, not silently
absorbed. -/
theorem c7_double_free_second_release (p : BlockPool) (id : Nat)
    (hlt : id < p.capacity) (h1 : p.refCnt id = 1) :
    ∃ p1 : BlockPool, p.release [id] = Except.ok p1 ∧ p1.refCnt id = 0 ∧
      p1.release [id] = Except.error PoolError.doubleFree := by
  have hro : releaseOne p id = Except.ok
      ({ p with
        refCnt := fun j => if j = id then p.refCnt id - 1 else p.refCnt j
        freeQueue := p.freeQueue ++ [id] }) := by
    rw [releaseOne, if_pos hlt, if_neg (by rw [h1]; exact one_ne_zero),
      if_pos (by rw [h1])]
  refine ⟨{ p with
      refCnt := fun j => if j = id then p.refCnt id - 1 else p.refCnt j
      freeQueue := p.freeQueue ++ [id] }, ?_, ?_, ?_⟩
  · simp only [BlockPool.release, hro]
  · simp [h1]
  · have hz : ({ p with
        refCnt := fun j => if j = id then p.refCnt id - 1 else p.refCnt j
        freeQueue := p.freeQueue ++ [id] } : BlockPool).refCnt id = 0 := by
      simp [h1]
    have hro2 : releaseOne ({ p with
        refCnt := fun j => if j = id then p.refCnt id - 1 else p.refCnt j
        freeQueue := p.freeQueue ++ [id] } : BlockPool) id =
        Except.error PoolError.doubleFree := by
      rw [releaseOne, if_pos hlt, if_pos hz]
    simp only [BlockPool.release, hro2]

/-- C7 witness: in a capacity-1 pool whose single block was just allocated,
releasing block 0 twice in a row raises `DoubleFreeError` on the second
call. -/
theorem c7_double_free_second_release_witness :
    (0 : Nat) < ((BlockPool.new 1).step (PoolOp.allocate 1)).capacity ∧
    ((BlockPool.new 1).step (PoolOp.allocate 1)).refCnt 0 = 1 ∧
    (∃ p1 : BlockPool,
      ((BlockPool.new 1).step (PoolOp.allocate 1)).release [0] = Except.ok p1 ∧
      p1.refCnt 0 = 0 ∧
      p1.release [0] = Except.error PoolError.doubleFree) :=
  ⟨by decide, by decide,
    c7_double_free_second_release ((BlockPool.new 1).step (PoolOp.allocate 1)) 0
      (by decide) (by decide)⟩

/-- C8: for every non-empty list of free block ids, the analyzer reports
metrics whose mean run size equals the sum of the maximal-run lengths divided
by the number of runs, which equals the total number of free blocks divided by
the number of runs. -/
theorem c8_average_run_size (ids : List Nat) (hne : ids ≠ []) :
    ∃ m : FragMetrics, analyzeFreeBlocks ids = some m ∧
      m.average_run =
        ((((buildRuns (sortIds ids)).map List.length).sum : Nat) : ℚ) /
          (m.num_runs : ℚ) ∧
      m.average_run = (ids.length : ℚ) / (m.num_runs : ℚ) := by
  cases hm : analyzeFreeBlocks ids with
  | none => exact absurd hm (analyzeFreeBlocks_ne_none hne)
  | some m =>
    obtain ⟨hids, hrne, hnum, hlar, havg, htot, hfrag⟩ := analyzeFreeBlocks_some hm
    have hsum : ((buildRuns (sortIds ids)).map List.length).sum = ids.length := by
      rw [← List.length_flatten, buildRuns_eq_specRuns, specRuns_flatten,
        sortIds_length]
    refine ⟨m, rfl, ?_, ?_⟩
    · rw [havg]
    · rw [havg, hsum]

/-- C8 witness: the mean-run-size law on the input `[1, 2, 7]` (runs
`[[1,2],[7]]`, mean `3/2`). -/
theorem c8_average_run_size_witness :
    ([1, 2, 7] : List Nat) ≠ [] ∧
    (∃ m : FragMetrics, analyzeFreeBlocks [1, 2, 7] = some m ∧
      m.average_run =
        ((((buildRuns (sortIds [1, 2, 7])).map List.length).sum : Nat) : ℚ) /
          (m.num_runs : ℚ) ∧
      m.average_run = (([1, 2, 7] : List Nat).length : ℚ) / (m.num_runs : ℚ)) :=
  ⟨by decide, c8_average_run_size [1, 2, 7] (by decide)⟩

/-- C9: for every non-empty sorted list of free block ids, the run-building
loop produces runs that partition the input — their concatenation, in order,
is exactly the input list (so every id occurs in exactly one run, with
multiplicity), every run is non-empty, and the run lengths sum to the input
length. -/
theorem c9_runs_partition_input (l : List Nat) (hne : l ≠ [])
    (hsorted : l.Sorted (· ≤ ·)) :
    (buildRuns l).flatten = l ∧
    (∀ r ∈ buildRuns l, r ≠ []) ∧
    ((buildRuns l).map List.length).sum = l.length := by
  rw [buildRuns_eq_specRuns]
  refine ⟨specRuns_flatten l, specRuns_ne_nil l, ?_⟩
  rw [← List.length_flatten, specRuns_flatten]

/-- C9 witness: the partition property on the sorted input `[1, 2, 5]`. -/
theorem c9_runs_partition_input_witness :
    ([1, 2, 5] : List Nat) ≠ [] ∧ ([1, 2, 5] : List Nat).Sorted (· ≤ ·) ∧
    ((buildRuns [1, 2, 5]).flatten = [1, 2, 5] ∧
      (∀ r ∈ buildRuns [1, 2, 5], r ≠ []) ∧
      ((buildRuns [1, 2, 5]).map List.length).sum = ([1, 2, 5] : List Nat).length) :=
  ⟨by decide, by decide,
    c9_runs_partition_input [1, 2, 5] (by decide) (by decide)⟩

/-- C10: the external-fragmentation expression is evaluated only when the run
list is non-empty, which forces the (sorted) free-block-id list to be
non-empty; the division is therefore well-defined (non-zero denominator) and
the guarded else-branch returning 0 is never taken — the reported ratio always
comes from the division branch. -/
theorem c10_else_branch_unreachable (ids : List Nat) :
    (buildRuns (sortIds ids) ≠ [] → sortIds ids ≠ []) ∧
    ∀ m : FragMetrics, analyzeFreeBlocks ids = some m →
      ((sortIds ids).length : ℚ) ≠ 0 ∧
      m.external_frag = 1 - (m.largest_run : ℚ) / (((sortIds ids).length : Nat) : ℚ) := by
  constructor
  · intro h hnil
    apply h
    rw [hnil]
    rfl
  · intro m hm
    obtain ⟨hids, hrne, hnum, hlar, havg, htot, hfrag⟩ := analyzeFreeBlocks_some hm
    have hlen : (sortIds ids).length ≠ 0 :=
      fun h0 => hids (List.eq_nil_of_length_eq_zero h0)
    refine ⟨by exact_mod_cast hlen, ?_⟩
    rw [hfrag, htot]

/-- C10 witness: the division branch on the input `[4, 9]`. -/
theorem c10_else_branch_unreachable_witness :
    analyzeFreeBlocks [4, 9] =
      some { num_runs := 2, largest_run := 1, average_run := 1, total_free := 2,
             external_frag := 1/2 } ∧
    ((sortIds [4, 9]).length : ℚ) ≠ 0 ∧
    ({ num_runs := 2, largest_run := 1, average_run := 1, total_free := 2,
       external_frag := 1/2 } : FragMetrics).external_frag =
      1 - (({ num_runs := 2, largest_run := 1, average_run := 1, total_free := 2,
              external_frag := 1/2 } : FragMetrics).largest_run : ℚ) /
        (((sortIds [4, 9]).length : Nat) : ℚ) := by
  have hsome : analyzeFreeBlocks [4, 9] =
      some { num_runs := 2, largest_run := 1, average_run := 1, total_free := 2,
             external_frag := 1/2 } := by
    have hq : sortIds [4, 9] = [4, 9] := by decide
    have hruns : buildRuns [4, 9] = [[4], [9]] := by decide
    simp [analyzeFreeBlocks, hq, hruns, largestRunOf]
    norm_num
  exact ⟨hsome, (c10_else_branch_unreachable [4, 9]).2 _ hsome⟩

end MemFrag
